import Mathlib

/-!
Verification development for the arkouda GroupBy / broadcast core
(`src/arkouda/groupbyclass.py`).

The Python client code is shallowly embedded: columns (`pdarray`) become
lists of integers paired with a dtype tag, the grouping state cached on a
`GroupBy` object becomes the structure `GB`, fallible methods return
`Except PyError`, and every delegated call to the external execution
engine is recorded in a trace (`List Call`).  The external kernels
(argsort, coargsort, findSegments, segmented reduction, broadcast,
countReduction) are not part of the repository; they are modelled from
the specification's description of their interface and semantics, as the
doc comments of the corresponding definitions state.
-/

namespace Arkouda

/-- Dtype tag of a column, as used by the dtype checks in
`groupbyclass.py` (`values.dtype == bool`, `!= int64`, `!= uint64`). -/
inductive DType
  | int64
  | uint64
  | float64
  | bool
  deriving DecidableEq

/-- Shallow embedding of a `pdarray` value column: the element data
(booleans encoded as 0/1) together with its dtype tag. -/
structure PD where
  data : List Int
  dtype : DType
  deriving DecidableEq

/-- Errors raised by the embedded code.  Each constructor corresponds to
one `raise` site of `groupbyclass.py`:
`indexErr` = the out-of-bounds `keys[0]` access on an empty key sequence;
`typeErr` = a `TypeError` with the given message;
`valueUnsupportedReduction op` = `ValueError("Unsupported reduction: {op}\nMust be one of {Reductions}")`
(the error that lists the valid reduction set);
`valueSizeMismatch` = `ValueError("Attempt to group array using key array of different length")`;
`valueKeysNotSameSize` = `ValueError("Key arrays must all be same size")`;
`valueOneValuePerSegment` = `ValueError("Must have one value per segment")`;
`valueSegValSize` = `ValueError("segments and values arrays must be same size")`;
`valueEmptySegments` = `ValueError("cannot broadcast empty array")`;
`valueNeedSizeOrPerm` = `ValueError("must either supply permutation or size")`;
`valueSizeLT1` = `ValueError("result size must be greater than zero")`. -/
inductive PyError
  | indexErr
  | typeErr (msg : String)
  | valueUnsupportedReduction (op : String)
  | valueSizeMismatch
  | valueKeysNotSameSize
  | valueOneValuePerSegment
  | valueSegValSize
  | valueEmptySegments
  | valueNeedSizeOrPerm
  | valueSizeLT1
  deriving DecidableEq

/-- Whether an error is a Python `ValueError` (as opposed to a
`TypeError` or `IndexError`). -/
def PyError.isValueError : PyError → Bool
  | .indexErr => false
  | .typeErr _ => false
  | _ => true

/-- One delegated operation issued to the external execution engine
(`generic_msg` in the source): the engine-side sorts, segment finder,
segmented reduction, count reduction and broadcast fan-out. -/
inductive Call
  | sortSingle
  | sortMulti
  | findSegs
  | segReduce
  | countReduce
  | broadcastK
  deriving DecidableEq

/-- ASCII lower-casing of one character, modelling Python's `str.lower`
on the operator names used here (all of which are ASCII). -/
def lowerChar (c : Char) : Char :=
  if 65 ≤ c.toNat ∧ c.toNat ≤ 90 then Char.ofNat (c.toNat + 32) else c

/-- Modelling of Python's `str.lower()` applied to an operator name. -/
def pyLower (s : String) : String := String.mk (s.data.map lowerChar)

/-- Modelling of Python's `str.startswith(pre)`: the first characters of
`s` coincide with `pre`. -/
def pyStartsWith (s pre : String) : Bool := s.data.take pre.data.length == pre.data

/-- Modelled from the spec: the distinct key values in ascending order.
Used to express the external stable ascending sort kernels
(`sort-single-key` / `sort-multi-key` of spec §6), which are not part of
this repository. -/
def sortedDistinct {κ : Type} [LinearOrder κ] [DecidableEq κ] (xs : List κ) : List κ :=
  List.insertionSort (fun a b => a ≤ b) xs.dedup

/-- The original row indices whose key (under `f`) equals `u`, in
original row order. -/
def groupIdxF {κ : Type} [DecidableEq κ] (f : Nat → κ) (n : Nat) (u : κ) : List Nat :=
  (List.range n).filter (fun i => f i = u)

/-- The per-group index blocks, one per distinct key value in ascending
key order; inside a block indices keep their original relative order
(stability). -/
def blocksF {κ : Type} [LinearOrder κ] [DecidableEq κ] (f : Nat → κ) (n : Nat) :
    List (List Nat) :=
  (sortedDistinct ((List.range n).map f)).map (groupIdxF f n)

/-- Modelled from the spec: the external stable ascending argsort kernel
(spec §6 `sort-single-key` / `sort-multi-key`, spec §4.2: "stable
ascending", ties preserve original relative order).  The result lists
the row indices in ascending key order, with equal keys in original
order: the concatenation of the per-key blocks over ascending distinct
keys. -/
def argsortF {κ : Type} [LinearOrder κ] [DecidableEq κ] (f : Nat → κ) (n : Nat) : List Nat :=
  (blocksF f n).flatten

/-- Modelled from the spec: `arkouda.sorting.argsort` (delegated
single-key stable ascending sort) on an int64 key column. -/
def argsortL (ks : List Int) : List Nat :=
  argsortF (fun i => ks.getD i 0) ks.length

/-- The composite key of row `i`: the tuple of the flattened key
representations' values at row `i`, in declared order. -/
def keyTuple (gks : List (List Int)) (i : Nat) : List Int :=
  gks.map (fun k => k.getD i 0)

/-- Modelled from the spec: `arkouda.sorting.coargsort` (delegated
multi-key lexicographic stable ascending sort), realized as the stable
ascending argsort of the per-row composite key tuples under the
lexicographic order. -/
def coargsortL (gks : List (List Int)) (n : Nat) : List Nat :=
  argsortF (keyTuple gks) n

/-- The start positions of the maximal constant runs of a key sequence:
position `t` (counted from `t₀`) is a start when its key differs from
its predecessor (`prev` is the key just before the sequence, `none` at
the very beginning). -/
def runStarts {κ : Type} [DecidableEq κ] : Nat → Option κ → List κ → List Nat
  | _, _, [] => []
  | t, prev, k :: rest =>
      (if some k ≠ prev then [t] else []) ++ runStarts (t + 1) (some k) rest

/-- Modelled from the spec: the external `find-segments` kernel (spec §6
`find-segments`, §4.2): given the permutation and the key at each
original row, it returns (a) the segment start offsets — the positions
within the permuted ordering where the key changes — and (b) the
original row positions representative of each group (each segment's
first row, mapped through the permutation). -/
def findSegmentsK {κ : Type} [DecidableEq κ] (perm : List Nat) (f : Nat → κ) :
    List Nat × List Nat :=
  let starts := runStarts 0 none (perm.map f)
  (starts, starts.map (fun s => perm.getD s 0))

/-- Index of the segment containing grouped position `t`: the number of
segment start offsets that are `≤ t`, minus one. -/
def segOfPos (segs : List Nat) (t : Nat) : Nat :=
  (segs.filter (fun s => s ≤ t)).length - 1

/-- Modelled from the spec: the external broadcast fan-out kernel (spec
§6 `broadcast`, §4.5): replicate `vals[g]` across all grouped positions
in segment `g`'s range.  With `permute = false` the result is emitted in
grouped order directly; with `permute = true` the replicated grouped
order sequence is scattered through the inverse of the permutation, so
the result is in original row order (`out[i]` is the value of the
segment containing `i`'s permuted position). -/
def broadcastKernelG (perm segs : List Nat) (vals : List Int) (permute : Bool)
    (size : Nat) : List Int :=
  if permute then
    (List.range size).map (fun i => vals.getD (segOfPos segs (perm.indexOf i)) 0)
  else
    (List.range size).map (fun t => vals.getD (segOfPos segs t) 0)

/-- Modelled from the spec: the external `countReduction` kernel (spec
§6 `segment-count`): the number of rows in each segment, i.e. the
distance from each segment start to the next (the last segment extends
to the total size). -/
def countKernel (segs : List Nat) (sz : Nat) : List Int :=
  (List.range segs.length).map
    (fun g => Int.ofNat ((if g + 1 < segs.length then segs.getD (g + 1) 0 else sz) - segs.getD g 0))

/-- The slice of the permuted values belonging to segment `g`:
`[segs[g], segs[g+1])`, the last segment extending to the end. -/
def segSlice (pv : List Int) (segs : List Nat) (g : Nat) : List Int :=
  let lo := segs.getD g 0
  let hi := if g + 1 < segs.length then segs.getD (g + 1) 0 else pv.length
  (pv.drop lo).take (hi - lo)

/-- Modelled from the spec: the external `segmentedReduction` kernel for
the `sum` operator (spec §4.3: one aggregate per segment, in segment
order; `sum` operates over the segment's values). -/
def segmentedSumK (pv : List Int) (segs : List Nat) : List Int :=
  (List.range segs.length).map (fun g => (segSlice pv segs g).sum)

/-- The reduction kernel parameter instantiated for the `sum` operator;
other operators are executed by the external engine and are left
abstract (claims ranging over all operators take the kernel as a
parameter). -/
def sumKernel (pv : List Int) (segs : List Nat) (op : String) (skipna : Bool) : List Int :=
  segmentedSumK pv segs

/-- The construction-time cached grouping state of a `GroupBy` instance:
`assume_sorted`, `permutation`, `segments`, `unique_keys` (single
int64 key view), `size`, `nkeys`, `ngroups`. -/
structure GB where
  assumeSorted : Bool
  permutation : List Nat
  segments : List Nat
  uniqueKeys : List Int
  size : Nat
  nkeys : Nat
  ngroups : Nat
  deriving DecidableEq

/-- The `GroupBy` constructor for a single int64 key column with default
flags (`assume_sorted = False`): the permutation is the delegated stable
ascending argsort, segments and unique-row positions come from the
delegated `find-segments` kernel, `unique_keys` is the key column
indexed at the unique-row positions, and `ngroups` is its length
(`GroupBy.__init__` together with `GroupBy.find_segments`). -/
def groupBySingle (ks : List Int) : GB :=
  let perm := argsortL ks
  let fs := findSegmentsK perm (fun i => ks.getD i 0)
  let uks := fs.2.map (fun r => ks.getD r 0)
  { assumeSorted := false
    permutation := perm
    segments := fs.1
    uniqueKeys := uks
    size := ks.length
    nkeys := 1
    ngroups := uks.length }

/-- One groupable key column as seen by the constructor: its size,
whether it exposes the `_get_grouping_keys` capability (and the
flattened representations it returns), and the `group()` self-grouping
capability when exposed. -/
structure Groupable where
  size : Nat
  hasGroupingKeysCap : Bool
  gkeys : List (List Int)
  selfGroup : Option (List Nat)

/-- The `keys` argument of `GroupBy.__init__`: either a single groupable
object exposing `_get_grouping_keys` (the branch taken when
`hasattr(keys, "_get_grouping_keys")`), or a sequence of columns. -/
inductive KeysInput
  | single (g : Groupable)
  | seq (gs : List Groupable)

/-- The per-column loop of `GroupBy.__init__`'s sequence branch: for
each column, raise `ValueError` if its size differs from the first
column's, raise `TypeError` if it lacks the grouping capability,
otherwise extend the flattened grouping keys. -/
def gatherKeys (sz : Nat) : List Groupable → Except PyError (List (List Int))
  | [] => .ok []
  | g :: rest =>
      if g.size ≠ sz then .error .valueKeysNotSameSize
      else if g.hasGroupingKeysCap = false then
        .error (.typeErr "does not support grouping")
      else do
        let r ← gatherKeys sz rest
        .ok (g.gkeys ++ r)

/-- The key normalizer of `GroupBy.__init__` (lines 123-142): a single
groupable yields `nkeys = 1`, its size and its flattened grouping keys;
a sequence first reads `keys[0].size` (an out-of-bounds index access
when the sequence is empty) and then runs the per-column loop.  Returns
`(nkeys, size, flattened grouping keys)`. -/
def normalizeKeys : KeysInput → Except PyError (Nat × Nat × List (List Int))
  | .single g => .ok (1, g.size, g.gkeys)
  | .seq gs =>
      if h : 0 < gs.length then do
        let sz := (gs.get ⟨0, h⟩).size
        let flat ← gatherKeys sz gs
        .ok (gs.length, sz, flat)
      else .error .indexErr

/-- Whether `self.keys` exposes the `group()` self-grouping capability:
only a single key object can (a plain sequence has no `group`
attribute). -/
def keysSelfGroup : KeysInput → Option (List Nat)
  | .single g => g.selfGroup
  | .seq _ => none

/-- The permutation selection of `GroupBy.__init__` (lines 143-155):
normalize the keys, then in priority order take the identity sequence
when `assume_sorted`, else the verbatim result of the sole key object's
`group()` when exposed, else the delegated single-key argsort when there
is exactly one flattened key representation, else the delegated
multi-key coargsort over all flattened representations. -/
def initPermutation (inp : KeysInput) (assumeSorted : Bool) : Except PyError (List Nat) := do
  let norm ← normalizeKeys inp
  if assumeSorted then pure (List.range norm.2.1)
  else
    match keysSelfGroup inp with
    | some p => pure p
    | none =>
        if norm.2.2.length = 1 then pure (argsortL (norm.2.2.getD 0 []))
        else pure (coargsortL norm.2.2 norm.2.1)

/-- The closed reduction set `GROUPBY_REDUCTION_TYPES`, the values of
the `GroupByReductionType` enumeration in declaration order. -/
def GROUPBY_REDUCTION_TYPES : List String :=
  ["sum", "prod", "mean", "min", "max", "argmin", "argmax", "nunique",
   "any", "all", "or", "and", "xor"]

/-- `GroupBy.broadcast` (lines 903-971): raise `ValueError` unless there
is one value per segment, otherwise delegate the fan-out to the external
broadcast kernel with the instance's permutation, segments and size.
Returns the (unchanged) instance state, the delegation trace and the
result. -/
def methodBroadcast (g : GB) (values : PD) (permute : Bool) :
    GB × List Call × Except PyError (List Int) :=
  if values.data.length ≠ g.segments.length then (g, [], .error .valueOneValuePerSegment)
  else
    (g, [Call.broadcastK],
      .ok (broadcastKernelG g.permutation g.segments values.data permute g.size))

/-- The column `arange(n)` of the group indices `[0, n)`. -/
def arangeInt (n : Nat) : List Int := (List.range n).map Int.ofNat

/-- The first step of `GroupBy.nunique` (line 702):
`ukidx = self.broadcast(arange(self.ngroups), permute=True)`. -/
def nuniqueStep1 (g : GB) : GB × List Call × Except PyError (List Int) :=
  methodBroadcast g ⟨arangeInt g.ngroups, DType.int64⟩ true

/-- `GroupBy.nunique` (lines 653-724) for a single int64/uint64 value
column: broadcast the group index out to one tag per original row
(`permute=True`), check the value column's dtype, build a secondary
`GroupBy` over the composite key `[ukidx, values]` (whose constructor
first checks that both key columns have the same size and then delegates
a multi-key sort and the segment finder), regroup the unique pairs'
first field with `assume_sorted=True` (identity permutation, delegated
segment finder), and count rows per group with the delegated count
kernel.  Returns `(unique_keys, counts)`. -/
def methodNunique (g : GB) (values : PD) :
    GB × List Call × Except PyError (List Int × List Int) :=
  match nuniqueStep1 g with
  | (_, calls1, .error e) => (g, calls1, .error e)
  | (_, calls1, .ok ukidx) =>
      if values.dtype ≠ DType.int64 ∧ values.dtype ≠ DType.uint64 then
        (g, calls1, .error (.typeErr "nunique unsupported for this dtype"))
      else if values.data.length ≠ ukidx.length then
        (g, calls1, .error .valueKeysNotSameSize)
      else
        let n2 := ukidx.length
        let tup := keyTuple [ukidx, values.data]
        let perm2 := coargsortL [ukidx, values.data] n2
        let fs2 := findSegmentsK perm2 tup
        let uk20 := fs2.2.map (fun r => ukidx.getD r 0)
        let fs3 := findSegmentsK (List.range uk20.length) (fun i => uk20.getD i 0)
        let nuniq := countKernel fs3.1 uk20.length
        (g, calls1 ++ [Call.sortMulti, Call.findSegs, Call.findSegs, Call.countReduce],
          .ok (g.uniqueKeys, nuniq))

/-- `GroupBy.aggregate` (lines 232-309): lowercase the operator, raise
`ValueError` listing the valid set when it is not a member of the closed
reduction set, redirect `nunique` to the dedicated procedure, raise
`ValueError` when the value column's size differs from the grouping's
size, reindex the values by the permutation unless `assume_sorted`,
delegate the per-segment reduction to the external kernel (taken as the
parameter `kf`), and for operators starting with `arg` map each returned
position through the permutation before returning. -/
def methodAggregate (kf : List Int → List Nat → String → Bool → List Int)
    (g : GB) (values : PD) (operator : String) (skipna : Bool) :
    GB × List Call × Except PyError (List Int × List Int) :=
  let op := pyLower operator
  if op ∉ GROUPBY_REDUCTION_TYPES then (g, [], .error (.valueUnsupportedReduction op))
  else if op = "nunique" then methodNunique g values
  else if values.data.length ≠ g.size then (g, [], .error .valueSizeMismatch)
  else
    let pv := if g.assumeSorted then values.data
              else g.permutation.map (fun t => values.data.getD t 0)
    let res := kf pv g.segments op skipna
    if pyStartsWith op "arg" then
      (g, [Call.segReduce],
        .ok (g.uniqueKeys, res.map (fun t => (g.permutation.getD t.toNat 0 : Int))))
    else (g, [Call.segReduce], .ok (g.uniqueKeys, res))

/-- `GroupBy.count` (lines 198-230): delegate directly to the external
count kernel over the segments and size. -/
def methodCount (g : GB) : GB × List Call × Except PyError (List Int × List Int) :=
  (g, [Call.countReduce], .ok (g.uniqueKeys, countKernel g.segments g.size))

/-- `GroupBy.sum`: facade over `aggregate(values, "sum", skipna)`. -/
def methodSum (kf : List Int → List Nat → String → Bool → List Int)
    (g : GB) (values : PD) (skipna : Bool) :=
  methodAggregate kf g values "sum" skipna

/-- `GroupBy.prod`: facade over `aggregate(values, "prod", skipna)`. -/
def methodProd (kf : List Int → List Nat → String → Bool → List Int)
    (g : GB) (values : PD) (skipna : Bool) :=
  methodAggregate kf g values "prod" skipna

/-- `GroupBy.mean`: facade over `aggregate(values, "mean", skipna)`. -/
def methodMean (kf : List Int → List Nat → String → Bool → List Int)
    (g : GB) (values : PD) (skipna : Bool) :=
  methodAggregate kf g values "mean" skipna

/-- `GroupBy.min` (lines 453-499): raise `TypeError` on a bool dtype
value column, else `aggregate(values, "min", skipna)`. -/
def methodMin (kf : List Int → List Nat → String → Bool → List Int)
    (g : GB) (values : PD) (skipna : Bool) :=
  if values.dtype = DType.bool then
    (g, ([] : List Call),
      Except.error (α := List Int × List Int)
        (PyError.typeErr "min is only supported for pdarrays of dtype float64, uint64, and int64"))
  else methodAggregate kf g values "min" skipna

/-- `GroupBy.max` (lines 501-547): raise `TypeError` on a bool dtype
value column, else `aggregate(values, "max", skipna)`. -/
def methodMax (kf : List Int → List Nat → String → Bool → List Int)
    (g : GB) (values : PD) (skipna : Bool) :=
  if values.dtype = DType.bool then
    (g, ([] : List Call),
      Except.error (α := List Int × List Int)
        (PyError.typeErr "max is only supported for pdarrays of dtype float64, uint64, and int64"))
  else methodAggregate kf g values "max" skipna

/-- `GroupBy.argmin` (lines 549-600): raise `TypeError` on a bool dtype
value column, else `aggregate(values, "argmin")`. -/
def methodArgmin (kf : List Int → List Nat → String → Bool → List Int)
    (g : GB) (values : PD) :=
  if values.dtype = DType.bool then
    (g, ([] : List Call),
      Except.error (α := List Int × List Int)
        (PyError.typeErr "argmin is only supported for pdarrays of dtype float64, uint64, and int64"))
  else methodAggregate kf g values "argmin" true

/-- `GroupBy.argmax` (lines 602-651): raise `TypeError` on a bool dtype
value column, else `aggregate(values, "argmax")`. -/
def methodArgmax (kf : List Int → List Nat → String → Bool → List Int)
    (g : GB) (values : PD) :=
  if values.dtype = DType.bool then
    (g, ([] : List Call),
      Except.error (α := List Int × List Int)
        (PyError.typeErr "argmax is only supported for pdarrays of dtype float64, uint64, and int64"))
  else methodAggregate kf g values "argmax" true

/-- `GroupBy.any` (lines 726-755): raise `TypeError` unless the value
column's dtype is bool, else `aggregate(values, "any")`. -/
def methodAny (kf : List Int → List Nat → String → Bool → List Int)
    (g : GB) (values : PD) :=
  if values.dtype ≠ DType.bool then
    (g, ([] : List Call),
      Except.error (α := List Int × List Int)
        (PyError.typeErr "any is only supported for pdarrays of dtype bool"))
  else methodAggregate kf g values "any" true

/-- `GroupBy.all` (lines 757-790): raise `TypeError` unless the value
column's dtype is bool, else `aggregate(values, "all")`. -/
def methodAll (kf : List Int → List Nat → String → Bool → List Int)
    (g : GB) (values : PD) :=
  if values.dtype ≠ DType.bool then
    (g, ([] : List Call),
      Except.error (α := List Int × List Int)
        (PyError.typeErr "all is only supported for pdarrays of dtype bool"))
  else methodAggregate kf g values "all" true

/-- `GroupBy.OR` (lines 792-827): raise `TypeError` unless the value
column's dtype is int64 or uint64, else `aggregate(values, "or")`. -/
def methodOR (kf : List Int → List Nat → String → Bool → List Int)
    (g : GB) (values : PD) :=
  if values.dtype ≠ DType.int64 ∧ values.dtype ≠ DType.uint64 then
    (g, ([] : List Call),
      Except.error (α := List Int × List Int)
        (PyError.typeErr "OR is only supported for pdarrays of dtype int64 or uint64"))
  else methodAggregate kf g values "or" true

/-- `GroupBy.AND` (lines 829-864): raise `TypeError` unless the value
column's dtype is int64 or uint64, else `aggregate(values, "and")`. -/
def methodAND (kf : List Int → List Nat → String → Bool → List Int)
    (g : GB) (values : PD) :=
  if values.dtype ≠ DType.int64 ∧ values.dtype ≠ DType.uint64 then
    (g, ([] : List Call),
      Except.error (α := List Int × List Int)
        (PyError.typeErr "AND is only supported for pdarrays of dtype int64 or uint64"))
  else methodAggregate kf g values "and" true

/-- `GroupBy.XOR` (lines 866-901): raise `TypeError` unless the value
column's dtype is int64 or uint64, else `aggregate(values, "xor")`. -/
def methodXOR (kf : List Int → List Nat → String → Bool → List Int)
    (g : GB) (values : PD) :=
  if values.dtype ≠ DType.int64 ∧ values.dtype ≠ DType.uint64 then
    (g, ([] : List Call),
      Except.error (α := List Int × List Int)
        (PyError.typeErr "XOR is only supported for pdarrays of dtype int64 or uint64"))
  else methodAggregate kf g values "xor" true

/-- The module-level `broadcast` function (lines 973-1045): raise
`ValueError` when segments and values differ in size, when segments is
empty, when neither a permutation nor a size is supplied (`size = -1` is
the not-supplied default), or when the resolved size (the permutation's
length when one is supplied, else the `size` argument) is less than one;
otherwise delegate the fan-out to the external broadcast kernel. -/
def broadcastModule (segments : List Nat) (values : List Int) (size : Int)
    (permutation : Option (List Nat)) : List Call × Except PyError (List Int) :=
  if segments.length ≠ values.length then ([], .error .valueSegValSize)
  else if segments.length = 0 then ([], .error .valueEmptySegments)
  else
    match permutation with
    | none =>
        if size = -1 then ([], .error .valueNeedSizeOrPerm)
        else if size < 1 then ([], .error .valueSizeLT1)
        else ([Call.broadcastK], .ok (broadcastKernelG [] segments values false size.toNat))
    | some p =>
        if (p.length : Int) < 1 then ([], .error .valueSizeLT1)
        else ([Call.broadcastK], .ok (broadcastKernelG p segments values true p.length))

/-- The sum of the value column `w` over all rows in the same group as
row `i` (rows with the same key value): the right-hand side of the
round-trip property. -/
def groupSumAt (ks w : List Int) (i : Nat) : Int :=
  (((List.range ks.length).filter (fun j => ks.getD j 0 = ks.getD i 0)).map
    (fun j => w.getD j 0)).sum

/-- The group index of original row `i`: the position of its key among
the distinct keys in ascending order. -/
def groupIndexOf (ks : List Int) (i : Nat) : Nat :=
  (sortedDistinct ks).indexOf (ks.getD i 0)

/-- Prefix length: the total length of the first `g` blocks. -/
def prefLen {α : Type} (L : List (List α)) (g : Nat) : Nat :=
  ((L.take g).map List.length).sum

/-- The start offsets of a list of blocks, the first block starting at
`a`: the segment boundaries of a concatenation. -/
def offsetsFrom {α : Type} (a : Nat) : List (List α) → List Nat
  | [] => []
  | b :: L => a :: offsetsFrom (a + b.length) L

/-- The resolved output size of the module-level `broadcast`: the
permutation's length when one is supplied, else the `size` argument. -/
def resolvedSize (size : Int) : Option (List Nat) → Int
  | some p => (p.length : Int)
  | none => size

theorem gatherKeys_ne_indexErr (sz : Nat) :
    ∀ (gs : List Groupable) (e : PyError), gatherKeys sz gs = .error e → e ≠ .indexErr := by
  intro gs
  induction gs with
  | nil => intro e h; simp [gatherKeys] at h
  | cons g rest ih =>
      intro e h
      by_cases h1 : g.size ≠ sz
      · simp [gatherKeys, h1] at h
        rw [← h]; intro hc; cases hc
      · by_cases h2 : g.hasGroupingKeysCap = false
        · simp [gatherKeys, h1, h2] at h
          rw [← h]; intro hc; cases hc
        · simp only [gatherKeys, if_neg h1, if_neg h2] at h
          rcases hr : gatherKeys sz rest with e2 | r
          · rw [hr] at h
            simp [Except.bind, bind] at h
            exact h ▸ ih e2 hr
          · rw [hr] at h
            simp [Except.bind, bind] at h

/-- C10: with a non-empty key sequence the constructor's `keys[0]`
access is in bounds and no out-of-bounds indexing error can arise; with
the empty sequence, construction fails with the out-of-bounds indexing
error on the first-element access, before any of the normalizer's
declared type or value errors. -/
theorem c10_empty_key_sequence (gs : List Groupable) :
    (gs = [] → normalizeKeys (.seq gs) = .error .indexErr) ∧
    (gs ≠ [] → ∀ e, normalizeKeys (.seq gs) = .error e → e ≠ .indexErr) := by
  constructor
  · rintro rfl
    simp [normalizeKeys]
  · intro hne e h
    have hlen : 0 < gs.length := List.length_pos.mpr hne
    simp only [normalizeKeys, dif_pos hlen] at h
    rcases hr : gatherKeys (gs.get ⟨0, hlen⟩).size gs with e2 | r
    · rw [hr] at h
      simp [Except.bind, bind] at h
      exact h ▸ gatherKeys_ne_indexErr _ gs e2 hr
    · rw [hr] at h
      simp [Except.bind, bind] at h

theorem c10_empty_key_sequence_witness :
    (([] : List Groupable) = [] → normalizeKeys (.seq []) = .error .indexErr) ∧
    (([⟨2, true, [[1, 2]], none⟩] : List Groupable) ≠ [] →
      ∀ e, normalizeKeys (.seq [⟨2, true, [[1, 2]], none⟩]) = .error e → e ≠ .indexErr) :=
  ⟨(c10_empty_key_sequence []).1, (c10_empty_key_sequence [⟨2, true, [[1, 2]], none⟩]).2⟩

/-- C2: the constructor's permutation is selected in priority order:
identity `[0, size)` when `assume_sorted`; else the sole key object's
`group()` result verbatim when exposed; else the delegated single-key
stable sort when there is exactly one flattened key representation; else
the delegated stable multi-key composite sort over all flattened key
representations in declared order. -/
theorem c2_permutation_priority (inp : KeysInput) (nk sz : Nat) (gks : List (List Int))
    (hnorm : normalizeKeys inp = .ok (nk, sz, gks)) :
    (initPermutation inp true = .ok (List.range sz)) ∧
    (∀ p, keysSelfGroup inp = some p → initPermutation inp false = .ok p) ∧
    (keysSelfGroup inp = none → gks.length = 1 →
      initPermutation inp false = .ok (argsortL (gks.getD 0 []))) ∧
    (keysSelfGroup inp = none → gks.length ≠ 1 →
      initPermutation inp false = .ok (coargsortL gks sz)) := by
  refine ⟨?_, ?_, ?_, ?_⟩
  · simp [initPermutation, hnorm, Except.bind, bind, pure, Except.pure]
  · intro p hsg
    simp [initPermutation, hnorm, Except.bind, bind, pure, Except.pure, hsg]
  · intro hsg hone
    simp [initPermutation, hnorm, Except.bind, bind, pure, Except.pure, hsg, hone]
  · intro hsg hone
    simp [initPermutation, hnorm, Except.bind, bind, pure, Except.pure, hsg, hone]

theorem c2_permutation_priority_witness :
    (initPermutation (.single ⟨3, true, [[7, 5, 6]], none⟩) true = .ok (List.range 3)) ∧
    (∀ p, keysSelfGroup (.single ⟨3, true, [[7, 5, 6]], none⟩) = some p →
      initPermutation (.single ⟨3, true, [[7, 5, 6]], none⟩) false = .ok p) ∧
    (keysSelfGroup (.single ⟨3, true, [[7, 5, 6]], none⟩) = none →
      ([[7, 5, 6]] : List (List Int)).length = 1 →
      initPermutation (.single ⟨3, true, [[7, 5, 6]], none⟩) false =
        .ok (argsortL (([[7, 5, 6]] : List (List Int)).getD 0 []))) ∧
    (keysSelfGroup (.single ⟨3, true, [[7, 5, 6]], none⟩) = none →
      ([[7, 5, 6]] : List (List Int)).length ≠ 1 →
      initPermutation (.single ⟨3, true, [[7, 5, 6]], none⟩) false =
        .ok (coargsortL [[7, 5, 6]] 3)) :=
  c2_permutation_priority (.single ⟨3, true, [[7, 5, 6]], none⟩) 1 3 [[7, 5, 6]] rfl

/-- C7: the module-level `broadcast` raises a value error exactly when
segments and values differ in size, or segments is empty, or neither a
size nor a permutation is supplied, or the resolved output size is less
than 1; with a permutation the `size` argument is ignored and the output
length is the permutation's length; otherwise the call delegates to the
external kernel. -/
theorem c7_broadcast_module_validation (segs : List Nat) (vals : List Int) (size : Int)
    (perm : Option (List Nat)) :
    ((∃ e, (broadcastModule segs vals size perm).2 = .error e ∧ e.isValueError = true) ↔
      (segs.length ≠ vals.length ∨ segs.length = 0 ∨ (perm = none ∧ size = -1) ∨
        resolvedSize size perm < 1)) ∧
    (∀ p size2, perm = some p →
      broadcastModule segs vals size perm = broadcastModule segs vals size2 perm) ∧
    (∀ p out, perm = some p → (broadcastModule segs vals size perm).2 = .ok out →
      out.length = p.length) ∧
    (∀ out, (broadcastModule segs vals size perm).2 = .ok out →
      (broadcastModule segs vals size perm).1 = [Call.broadcastK]) := by
  refine ⟨?_, ?_, ?_, ?_⟩
  · rcases perm with _ | p <;>
      simp only [broadcastModule, resolvedSize] <;>
      split_ifs <;>
      simp [PyError.isValueError, *]
  · rintro p size2 rfl
    simp [broadcastModule]
  · rintro p out rfl hok
    revert hok
    simp only [broadcastModule]
    split_ifs with h1 h2 h4 <;> intro hok <;> simp at hok
    rw [← hok]
    simp [broadcastKernelG]
  · intro out hok
    revert hok
    rcases perm with _ | p <;> simp only [broadcastModule] <;>
      split_ifs <;> intro hok <;> simp at hok ⊢

theorem c7_broadcast_module_validation_witness :
    (((∃ e, (broadcastModule [0, 2] [5, 7] (-1) (some [3, 2, 1, 0])).2 = .error e ∧
        e.isValueError = true) ↔
      (([0, 2] : List Nat).length ≠ ([5, 7] : List Int).length ∨
        ([0, 2] : List Nat).length = 0 ∨
        ((some [3, 2, 1, 0] : Option (List Nat)) = none ∧ (-1 : Int) = -1) ∨
        resolvedSize (-1) (some [3, 2, 1, 0]) < 1)) ∧
      (∀ p size2, (some [3, 2, 1, 0] : Option (List Nat)) = some p →
        broadcastModule [0, 2] [5, 7] (-1) (some [3, 2, 1, 0]) =
          broadcastModule [0, 2] [5, 7] size2 (some [3, 2, 1, 0])) ∧
      (∀ p out, (some [3, 2, 1, 0] : Option (List Nat)) = some p →
        (broadcastModule [0, 2] [5, 7] (-1) (some [3, 2, 1, 0])).2 = .ok out →
        out.length = p.length) ∧
      (∀ out, (broadcastModule [0, 2] [5, 7] (-1) (some [3, 2, 1, 0])).2 = .ok out →
        (broadcastModule [0, 2] [5, 7] (-1) (some [3, 2, 1, 0])).1 = [Call.broadcastK])) :=
  c7_broadcast_module_validation [0, 2] [5, 7] (-1) (some [3, 2, 1, 0])

/-- C8: calling min, max, argmin or argmax on a boolean-typed value
column raises a type error with an empty delegation trace — no call to
the external engine is issued before the error. -/
theorem c8_bool_minmax_type_error (kf : List Int → List Nat → String → Bool → List Int)
    (g : GB) (v : PD) (skipna : Bool) (h : v.dtype = DType.bool) :
    methodMin kf g v skipna =
      (g, [], .error (.typeErr "min is only supported for pdarrays of dtype float64, uint64, and int64")) ∧
    methodMax kf g v skipna =
      (g, [], .error (.typeErr "max is only supported for pdarrays of dtype float64, uint64, and int64")) ∧
    methodArgmin kf g v =
      (g, [], .error (.typeErr "argmin is only supported for pdarrays of dtype float64, uint64, and int64")) ∧
    methodArgmax kf g v =
      (g, [], .error (.typeErr "argmax is only supported for pdarrays of dtype float64, uint64, and int64")) := by
  refine ⟨?_, ?_, ?_, ?_⟩ <;> simp [methodMin, methodMax, methodArgmin, methodArgmax, h]

theorem toNat_ofNat_of_lt (n : Nat) (h1 : n < 55296) : (Char.ofNat n).toNat = n := by
  have hv : n.isValidChar := Or.inl h1
  simp only [Char.ofNat, dif_pos hv, Char.ofNatAux, Char.toNat]
  simp [UInt32.toNat, UInt32.ofNatCore]

theorem lowerChar_idem (c : Char) : lowerChar (lowerChar c) = lowerChar c := by
  by_cases h : 65 ≤ c.toNat ∧ c.toNat ≤ 90
  · have hlo : lowerChar c = Char.ofNat (c.toNat + 32) := by simp [lowerChar, h]
    have htn : (Char.ofNat (c.toNat + 32)).toNat = c.toNat + 32 :=
      toNat_ofNat_of_lt _ (by omega)
    rw [hlo]
    simp only [lowerChar, htn]
    rw [if_neg (by omega)]
  · simp only [lowerChar, if_neg h]

theorem map_lowerChar_idem (l : List Char) :
    l.map (fun c => lowerChar (lowerChar c)) = l.map lowerChar := by
  induction l with
  | nil => rfl
  | cons c cs ih => simp [ih, lowerChar_idem]

theorem pyLower_idem (s : String) : pyLower (pyLower s) = pyLower s := by
  simp only [pyLower, List.map_map]
  have : s.data.map (lowerChar ∘ lowerChar) = s.data.map lowerChar := by
    rw [show (lowerChar ∘ lowerChar) = fun c => lowerChar (lowerChar c) from rfl]
    exact map_lowerChar_idem s.data
  rw [this]

theorem pyLower_fix_of_mem (op : String) (h : op ∈ GROUPBY_REDUCTION_TYPES) :
    pyLower op = op := by
  simp only [GROUPBY_REDUCTION_TYPES, List.mem_cons, List.mem_singleton,
    List.not_mem_nil, or_false] at h
  rcases h with rfl | rfl | rfl | rfl | rfl | rfl | rfl | rfl | rfl | rfl | rfl | rfl | rfl <;>
    decide

theorem startsWith_arg_iff (op : String) (h : op ∈ GROUPBY_REDUCTION_TYPES) :
    pyStartsWith op "arg" = true ↔ (op = "argmin" ∨ op = "argmax") := by
  simp only [GROUPBY_REDUCTION_TYPES, List.mem_cons, List.mem_singleton,
    List.not_mem_nil, or_false] at h
  rcases h with rfl | rfl | rfl | rfl | rfl | rfl | rfl | rfl | rfl | rfl | rfl | rfl | rfl <;>
    decide

theorem broadcastKernelG_length (perm segs : List Nat) (vals : List Int) (permute : Bool)
    (size : Nat) : (broadcastKernelG perm segs vals permute size).length = size := by
  unfold broadcastKernelG
  split_ifs <;> simp

theorem methodNunique_fst (g : GB) (v : PD) : (methodNunique g v).1 = g := by
  unfold methodNunique
  rcases h : nuniqueStep1 g with ⟨a, calls, r⟩
  rcases r with e | uk
  · rfl
  · simp only
    split_ifs <;> rfl

theorem methodNunique_snd_ne_unsupported (g : GB) (v : PD) (x : String) :
    (methodNunique g v).2.2 ≠ .error (.valueUnsupportedReduction x) := by
  unfold methodNunique
  rcases h : nuniqueStep1 g with ⟨a, calls, r⟩
  have he : ∀ e, r = .error e → e = .valueOneValuePerSegment := by
    intro e hr
    unfold nuniqueStep1 methodBroadcast at h
    subst hr
    split_ifs at h
    · rw [Prod.mk.injEq, Prod.mk.injEq] at h
      have := h.2.2
      simp only [Except.error.injEq] at this
      exact this.symm
    · rw [Prod.mk.injEq, Prod.mk.injEq] at h
      exact absurd h.2.2 (by simp)
  rcases r with e | uk
  · have := he e rfl
    subst this
    simp
  · simp only
    split_ifs <;> simp

theorem methodAggregate_fst (kf : List Int → List Nat → String → Bool → List Int)
    (g : GB) (v : PD) (op : String) (skipna : Bool) :
    (methodAggregate kf g v op skipna).1 = g := by
  simp only [methodAggregate]
  by_cases h1 : pyLower op ∈ GROUPBY_REDUCTION_TYPES
  · rw [if_neg (not_not_intro h1)]
    by_cases h2 : pyLower op = "nunique"
    · rw [if_pos h2]
      exact methodNunique_fst g v
    · rw [if_neg h2]
      by_cases h3 : v.data.length ≠ g.size
      · rw [if_pos h3]
      · rw [if_neg h3]
        split_ifs <;> rfl
  · rw [if_pos h1]

/-- C9: every post-construction read — count, aggregate and its facade
wrappers, nunique, and the instance broadcast — returns the instance
state unchanged, whether it succeeds or raises (the source methods never
assign to the cached grouping attributes). -/
theorem c9_reads_preserve_state (kf : List Int → List Nat → String → Bool → List Int)
    (g : GB) (v : PD) (op : String) (skipna permute : Bool) :
    (methodCount g).1 = g ∧
    (methodAggregate kf g v op skipna).1 = g ∧
    (methodSum kf g v skipna).1 = g ∧
    (methodProd kf g v skipna).1 = g ∧
    (methodMean kf g v skipna).1 = g ∧
    (methodMin kf g v skipna).1 = g ∧
    (methodMax kf g v skipna).1 = g ∧
    (methodArgmin kf g v).1 = g ∧
    (methodArgmax kf g v).1 = g ∧
    (methodAny kf g v).1 = g ∧
    (methodAll kf g v).1 = g ∧
    (methodOR kf g v).1 = g ∧
    (methodAND kf g v).1 = g ∧
    (methodXOR kf g v).1 = g ∧
    (methodNunique g v).1 = g ∧
    (methodBroadcast g v permute).1 = g := by
  refine ⟨rfl, methodAggregate_fst kf g v op skipna,
    methodAggregate_fst kf g v _ skipna,
    methodAggregate_fst kf g v _ skipna,
    methodAggregate_fst kf g v _ skipna,
    ?_, ?_, ?_, ?_, ?_, ?_, ?_, ?_, ?_, methodNunique_fst g v, ?_⟩
  · unfold methodMin
    split_ifs
    · rfl
    · exact methodAggregate_fst kf g v _ skipna
  · unfold methodMax
    split_ifs
    · rfl
    · exact methodAggregate_fst kf g v _ skipna
  · unfold methodArgmin
    split_ifs
    · rfl
    · exact methodAggregate_fst kf g v _ true
  · unfold methodArgmax
    split_ifs
    · rfl
    · exact methodAggregate_fst kf g v _ true
  · unfold methodAny
    split_ifs
    · rfl
    · exact methodAggregate_fst kf g v _ true
  · unfold methodAll
    split_ifs
    · rfl
    · exact methodAggregate_fst kf g v _ true
  · unfold methodOR
    split_ifs
    · rfl
    · exact methodAggregate_fst kf g v _ true
  · unfold methodAND
    split_ifs
    · rfl
    · exact methodAggregate_fst kf g v _ true
  · unfold methodXOR
    split_ifs
    · rfl
    · exact methodAggregate_fst kf g v _ true
  · unfold methodBroadcast
    split_ifs <;> rfl

theorem methodAggregate_noarg_eq (kf : List Int → List Nat → String → Bool → List Int)
    (g : GB) (v : PD) (op : String) (skipna : Bool)
    (hop : op ∈ GROUPBY_REDUCTION_TYPES) (hnu : op ≠ "nunique")
    (hsz : v.data.length = g.size) (hst : pyStartsWith op "arg" = false) :
    methodAggregate kf g v op skipna =
      (g, [Call.segReduce],
        .ok (g.uniqueKeys,
          kf (if g.assumeSorted then v.data
              else g.permutation.map (fun t => v.data.getD t 0))
            g.segments op skipna)) := by
  have hlow : pyLower op = op := pyLower_fix_of_mem op hop
  simp [methodAggregate, hlow, hop, hnu, hsz, hst]

/-- C3: for every operator in the closed reduction set (other than
nunique) with a size-matching value column, argmin and argmax — and only
they — have their kernel results mapped through the grouping's
permutation before being returned, while every other operator's
per-segment kernel results are returned unchanged. -/
theorem c3_arg_result_translation (kf : List Int → List Nat → String → Bool → List Int)
    (g : GB) (v : PD) (op : String) (skipna : Bool)
    (hop : op ∈ GROUPBY_REDUCTION_TYPES) (hnu : op ≠ "nunique")
    (hsz : v.data.length = g.size) :
    ((op = "argmin" ∨ op = "argmax") →
      methodAggregate kf g v op skipna =
        (g, [Call.segReduce],
          .ok (g.uniqueKeys,
            (kf (if g.assumeSorted then v.data
                 else g.permutation.map (fun t => v.data.getD t 0))
                g.segments op skipna).map
              (fun t => (g.permutation.getD t.toNat 0 : Int))))) ∧
    (op ≠ "argmin" → op ≠ "argmax" →
      methodAggregate kf g v op skipna =
        (g, [Call.segReduce],
          .ok (g.uniqueKeys,
            kf (if g.assumeSorted then v.data
                else g.permutation.map (fun t => v.data.getD t 0))
              g.segments op skipna))) := by
  have hlow : pyLower op = op := pyLower_fix_of_mem op hop
  constructor
  · intro harg
    have hst : pyStartsWith op "arg" = true := (startsWith_arg_iff op hop).mpr harg
    simp [methodAggregate, hlow, hop, hnu, hsz, hst]
  · intro h1 h2
    have hst : pyStartsWith op "arg" = false := by
      rcases hb : pyStartsWith op "arg"
      · rfl
      · rcases (startsWith_arg_iff op hop).mp hb with rfl | rfl
        · exact absurd rfl h1
        · exact absurd rfl h2
    exact methodAggregate_noarg_eq kf g v op skipna hop hnu hsz hst

theorem c3_arg_result_translation_witness :
    methodAggregate sumKernel (groupBySingle [1, 0, 1]) ⟨[5, 6, 7], DType.int64⟩ "argmin" true =
      ((groupBySingle [1, 0, 1]), [Call.segReduce],
        .ok ((groupBySingle [1, 0, 1]).uniqueKeys,
          (sumKernel
              (if (groupBySingle [1, 0, 1]).assumeSorted then [5, 6, 7]
               else (groupBySingle [1, 0, 1]).permutation.map
                 (fun t => ([5, 6, 7] : List Int).getD t 0))
              (groupBySingle [1, 0, 1]).segments "argmin" true).map
            (fun t => ((groupBySingle [1, 0, 1]).permutation.getD t.toNat 0 : Int)))) ∧
    methodAggregate sumKernel (groupBySingle [1, 0, 1]) ⟨[5, 6, 7], DType.int64⟩ "sum" true =
      ((groupBySingle [1, 0, 1]), [Call.segReduce],
        .ok ((groupBySingle [1, 0, 1]).uniqueKeys,
          sumKernel
            (if (groupBySingle [1, 0, 1]).assumeSorted then [5, 6, 7]
             else (groupBySingle [1, 0, 1]).permutation.map
               (fun t => ([5, 6, 7] : List Int).getD t 0))
            (groupBySingle [1, 0, 1]).segments "sum" true)) :=
  ⟨(c3_arg_result_translation sumKernel (groupBySingle [1, 0, 1]) ⟨[5, 6, 7], DType.int64⟩
      "argmin" true (by decide) (by decide) (by decide)).1 (Or.inl rfl),
   (c3_arg_result_translation sumKernel (groupBySingle [1, 0, 1]) ⟨[5, 6, 7], DType.int64⟩
      "sum" true (by decide) (by decide) (by decide)).2 (by decide) (by decide)⟩

/-- C4 counterexample: the closed reduction set of the code does not
contain "count", and `aggregate` called with operator "count" raises the
value error listing the valid set rather than accepting it — refuting
the claim that "count" is a member and is accepted. -/
theorem c4_count_rejected :
    "count" ∉ GROUPBY_REDUCTION_TYPES ∧
    (methodAggregate sumKernel (groupBySingle [0]) ⟨[1], DType.int64⟩ "count" true).2.2 =
      .error (.valueUnsupportedReduction "count") := by
  exact ⟨by decide, rfl⟩

/-- C4 (amended): `aggregate` lowercases its operator before validation,
so any call behaves identically to the call with the lowercased
operator, and it raises the value error listing the valid set exactly
when the lowercased operator is not a member of the closed reduction set
{sum, prod, mean, min, max, argmin, argmax, nunique, any, all, or, and,
xor} — which does not contain "count". -/
theorem c4_amended_case_insensitive (kf : List Int → List Nat → String → Bool → List Int)
    (g : GB) (v : PD) (s : String) (skipna : Bool) :
    methodAggregate kf g v s skipna = methodAggregate kf g v (pyLower s) skipna ∧
    ((methodAggregate kf g v s skipna).2.2 =
        .error (.valueUnsupportedReduction (pyLower s)) ↔
      pyLower s ∉ GROUPBY_REDUCTION_TYPES) ∧
    "count" ∉ GROUPBY_REDUCTION_TYPES := by
  refine ⟨?_, ?_, by decide⟩
  · simp only [methodAggregate, pyLower_idem]
  · by_cases hm : pyLower s ∈ GROUPBY_REDUCTION_TYPES
    · simp only [methodAggregate]
      rw [if_neg (not_not_intro hm)]
      split_ifs with h1 h2
      · simpa [hm] using methodNunique_snd_ne_unsupported g v (pyLower s)
      · simp [hm]
      · simp [hm]
      · simp [hm]
    · simp [methodAggregate, hm]

/-- C6 counterexample: `aggregate` with operator nunique and a
mismatched value column size issues a delegated broadcast call to the
external engine before the value error is raised — refuting the claim
that the size-mismatch value error precedes any delegation for every
operator including nunique. -/
theorem c6_counterexample :
    (methodAggregate sumKernel (groupBySingle [0, 1]) ⟨[1, 2, 3], DType.int64⟩
        "nunique" true).2.1 = [Call.broadcastK] ∧
    (methodAggregate sumKernel (groupBySingle [0, 1]) ⟨[1, 2, 3], DType.int64⟩
        "nunique" true).2.2 = .error .valueKeysNotSameSize := by
  exact ⟨rfl, rfl⟩

/-- C6 (amended): for every operator in the closed set other than
nunique, a size-mismatched value column raises the value error
immediately with an empty delegation trace; for nunique, the mismatch
also raises a value error (from the secondary grouping's key-size
check), but only after one delegated broadcast call has been issued. -/
theorem c6_amended_size_mismatch (kf : List Int → List Nat → String → Bool → List Int)
    (g : GB) (v : PD) (op : String) (skipna : Bool)
    (hop : op ∈ GROUPBY_REDUCTION_TYPES) (hsz : v.data.length ≠ g.size) :
    (op ≠ "nunique" →
      methodAggregate kf g v op skipna = (g, [], .error .valueSizeMismatch)) ∧
    (op = "nunique" → g.ngroups = g.segments.length →
      (v.dtype = DType.int64 ∨ v.dtype = DType.uint64) →
      methodAggregate kf g v op skipna =
        (g, [Call.broadcastK], .error .valueKeysNotSameSize)) := by
  have hlow : pyLower op = op := pyLower_fix_of_mem op hop
  constructor
  · intro hne
    simp [methodAggregate, hlow, hop, hne, hsz]
  · rintro rfl hng hdt
    simp only [methodAggregate, hlow]
    rw [if_neg (not_not_intro hop), if_pos trivial]
    unfold methodNunique nuniqueStep1 methodBroadcast
    have hlen : ¬((⟨arangeInt g.ngroups, DType.int64⟩ : PD).data.length ≠ g.segments.length) := by
      simp [arangeInt, hng]
    rw [if_neg hlen]
    have hdt2 : ¬(v.dtype ≠ DType.int64 ∧ v.dtype ≠ DType.uint64) := by
      rcases hdt with h | h <;> simp [h]
    simp only
    rw [if_neg hdt2]
    have huk : v.data.length ≠
        (broadcastKernelG g.permutation g.segments
          (⟨arangeInt g.ngroups, DType.int64⟩ : PD).data true g.size).length := by
      rw [broadcastKernelG_length]
      exact hsz
    rw [if_pos huk]

theorem c6_amended_size_mismatch_witness :
    methodAggregate sumKernel (groupBySingle [0, 1]) ⟨[1, 2, 3], DType.int64⟩ "sum" true =
      ((groupBySingle [0, 1]), [], .error .valueSizeMismatch) ∧
    methodAggregate sumKernel (groupBySingle [0, 1]) ⟨[1, 2, 3], DType.int64⟩ "nunique" true =
      ((groupBySingle [0, 1]), [Call.broadcastK], .error .valueKeysNotSameSize) :=
  ⟨(c6_amended_size_mismatch sumKernel (groupBySingle [0, 1]) ⟨[1, 2, 3], DType.int64⟩
      "sum" true (by decide) (by decide)).1 (by decide),
   (c6_amended_size_mismatch sumKernel (groupBySingle [0, 1]) ⟨[1, 2, 3], DType.int64⟩
      "nunique" true (by decide) (by decide)).2 rfl (by decide) (Or.inl rfl)⟩

theorem c8_bool_minmax_type_error_witness :
    methodMin sumKernel (groupBySingle [0, 1]) ⟨[0, 1], DType.bool⟩ true =
      ((groupBySingle [0, 1]), [],
        .error (.typeErr "min is only supported for pdarrays of dtype float64, uint64, and int64")) ∧
    methodMax sumKernel (groupBySingle [0, 1]) ⟨[0, 1], DType.bool⟩ true =
      ((groupBySingle [0, 1]), [],
        .error (.typeErr "max is only supported for pdarrays of dtype float64, uint64, and int64")) ∧
    methodArgmin sumKernel (groupBySingle [0, 1]) ⟨[0, 1], DType.bool⟩ =
      ((groupBySingle [0, 1]), [],
        .error (.typeErr "argmin is only supported for pdarrays of dtype float64, uint64, and int64")) ∧
    methodArgmax sumKernel (groupBySingle [0, 1]) ⟨[0, 1], DType.bool⟩ =
      ((groupBySingle [0, 1]), [],
        .error (.typeErr "argmax is only supported for pdarrays of dtype float64, uint64, and int64")) :=
  c8_bool_minmax_type_error sumKernel (groupBySingle [0, 1]) ⟨[0, 1], DType.bool⟩ true rfl

theorem getD_of_lt {α : Type} (l : List α) (i : Nat) (d : α) (h : i < l.length) :
    l.getD i d = l.get ⟨i, h⟩ := by
  rw [List.getD_eq_getElem?_getD, List.getElem?_eq_getElem h]
  rfl

theorem getD_map_range {α : Type} (h : Nat → α) (n i : Nat) (d : α) (hi : i < n) :
    ((List.range n).map h).getD i d = h i := by
  have hlen : i < ((List.range n).map h).length := by simpa using hi
  rw [getD_of_lt _ _ _ hlen]
  simp [List.getElem_map, List.getElem_range]

theorem map_getD_range (ks : List Int) :
    (List.range ks.length).map (fun j => ks.getD j 0) = ks := by
  apply List.ext_getElem (by simp)
  intro j h1 h2
  rw [List.getElem_map, List.getElem_range]
  exact (getD_of_lt ks j 0 h2).symm ▸ rfl

theorem mem_sortedDistinct {κ : Type} [LinearOrder κ] [DecidableEq κ] (xs : List κ)
    (u : κ) : u ∈ sortedDistinct xs ↔ u ∈ xs := by
  unfold sortedDistinct
  rw [(List.perm_insertionSort _ _).mem_iff]
  exact List.mem_dedup

theorem nodup_sortedDistinct {κ : Type} [LinearOrder κ] [DecidableEq κ] (xs : List κ) :
    (sortedDistinct xs).Nodup :=
  (List.perm_insertionSort _ _).nodup_iff.mpr (List.nodup_dedup xs)

theorem filter_disjoint_perm {α : Type} (p q : α → Bool) :
    ∀ (l : List α), (∀ a ∈ l, ¬(p a = true ∧ q a = true)) →
      (l.filter (fun a => p a || q a)).Perm (l.filter p ++ l.filter q) := by
  intro l
  induction l with
  | nil => intro _; simp
  | cons a l ih =>
      intro h
      have hrest := ih (fun x hx => h x (List.mem_cons_of_mem a hx))
      rcases hp : p a with _ | _
      · rcases hq : q a with _ | _
        · simpa [List.filter_cons, hp, hq] using hrest
        · simp only [List.filter_cons, hp, hq, Bool.false_or, cond_true, cond_false]
          exact (hrest.cons a).trans List.perm_middle.symm
      · have hq : q a = false := by
          rcases hq : q a with _ | _
          · rfl
          · exact absurd ⟨hp, hq⟩ (h a (List.mem_cons_self a l))
        simp only [List.filter_cons, hp, hq, Bool.true_or, cond_true, cond_false]
        exact (hrest.cons a)

theorem flatten_filter_perm {α κ : Type} [DecidableEq κ] (fk : α → κ) :
    ∀ (us : List κ), us.Nodup → ∀ (l : List α), (∀ x ∈ l, fk x ∈ us) →
      ((us.map (fun u => l.filter (fun x => fk x = u))).flatten).Perm l := by
  intro us
  induction us with
  | nil =>
      intro _ l hcov
      have : l = [] := by
        rcases l with _ | ⟨x, l⟩
        · rfl
        · exact absurd (hcov x (List.mem_cons_self x l)) (List.not_mem_nil _)
      subst this
      simp
  | cons u us ih =>
      intro hnd l hcov
      have hu_notmem : u ∉ us := (List.nodup_cons.mp hnd).1
      have hnd' : us.Nodup := (List.nodup_cons.mp hnd).2
      have hblocks : ∀ v ∈ us,
          l.filter (fun x => fk x = v) =
            (l.filter (fun x => decide ¬(fk x = u))).filter (fun x => fk x = v) := by
        intro v hv
        rw [List.filter_filter]
        apply List.filter_congr
        intro x _
        rcases hx : decide (fk x = v) with _ | _
        · simp
        · have : fk x = v := of_decide_eq_true hx
          have hne : ¬(fk x = u) := by
            rw [this]
            intro hvu
            exact hu_notmem (hvu ▸ hv)
          simp [hne]
      have hmap : us.map (fun v => l.filter (fun x => fk x = v)) =
          us.map (fun v => (l.filter (fun x => decide ¬(fk x = u))).filter
            (fun x => fk x = v)) :=
        List.map_congr_left hblocks
      have hcov' : ∀ x ∈ l.filter (fun x => decide ¬(fk x = u)), fk x ∈ us := by
        intro x hx
        rcases List.mem_filter.mp hx with ⟨hxl, hxne⟩
        have hne : ¬(fk x = u) := of_decide_eq_true hxne
        rcases List.mem_cons.mp (hcov x hxl) with h | h
        · exact absurd h hne
        · exact h
      have htail := ih hnd' (l.filter (fun x => decide ¬(fk x = u))) hcov'
      rw [List.map_cons, List.flatten_cons, hmap]
      have hsplit : (l.filter (fun x => fk x = u) ++
          l.filter (fun x => decide ¬(fk x = u))).Perm l := by
        have := List.filter_append_perm (fun x => decide (fk x = u)) l
        have heq : l.filter (fun x => decide ¬(fk x = u)) =
            l.filter (fun x => !decide (fk x = u)) := by
          apply List.filter_congr
          intro x _
          simp [decide_not]
        rw [heq]
        exact this
      exact ((htail.append_left _).trans hsplit)

theorem argsortF_perm_range {κ : Type} [LinearOrder κ] [DecidableEq κ]
    (f : Nat → κ) (n : Nat) : (argsortF f n).Perm (List.range n) := by
  unfold argsortF blocksF groupIdxF
  apply flatten_filter_perm f _ (nodup_sortedDistinct _)
  intro x hx
  rw [mem_sortedDistinct]
  exact List.mem_map_of_mem f hx

theorem length_argsortF {κ : Type} [LinearOrder κ] [DecidableEq κ]
    (f : Nat → κ) (n : Nat) : (argsortF f n).length = n :=
  (argsortF_perm_range f n).length_eq.trans (List.length_range n)

theorem mem_argsortF {κ : Type} [LinearOrder κ] [DecidableEq κ]
    (f : Nat → κ) (n i : Nat) : i ∈ argsortF f n ↔ i < n := by
  rw [(argsortF_perm_range f n).mem_iff, List.mem_range]

theorem length_offsetsFrom {α : Type} : ∀ (L : List (List α)) (a : Nat),
    (offsetsFrom a L).length = L.length := by
  intro L
  induction L with
  | nil => intro a; rfl
  | cons b L ih => intro a; simp [offsetsFrom, ih]

theorem le_of_mem_offsetsFrom {α : Type} : ∀ (L : List (List α)) (a s : Nat),
    s ∈ offsetsFrom a L → a ≤ s := by
  intro L
  induction L with
  | nil => intro a s h; simp [offsetsFrom] at h
  | cons b L ih =>
      intro a s h
      rcases List.mem_cons.mp h with rfl | h
      · exact Nat.le_refl s
      · exact Nat.le_trans (Nat.le_add_right a b.length) (ih (a + b.length) s h)

theorem prefLen_zero {α : Type} (L : List (List α)) : prefLen L 0 = 0 := rfl

theorem prefLen_cons {α : Type} (b : List α) (L : List (List α)) (g : Nat) :
    prefLen (b :: L) (g + 1) = b.length + prefLen L g := by
  simp [prefLen]

theorem prefLen_succ_getD {α : Type} : ∀ (L : List (List α)) (g : Nat), g < L.length →
    prefLen L (g + 1) = prefLen L g + (L.getD g []).length := by
  intro L
  induction L with
  | nil => intro g hg; exact absurd hg (by simp)
  | cons b L ih =>
      intro g hg
      rcases g with _ | g
      · simp [prefLen_cons, prefLen_zero]
      · rw [prefLen_cons, prefLen_cons, ih g (by simpa using hg)]
        simp [Nat.add_assoc]

theorem prefLen_of_ge {α : Type} (L : List (List α)) (g : Nat) (h : L.length ≤ g) :
    prefLen L g = L.flatten.length := by
  simp [prefLen, List.take_of_length_le h, List.length_flatten]

theorem getD_offsetsFrom {α : Type} : ∀ (L : List (List α)) (a g : Nat), g < L.length →
    (offsetsFrom a L).getD g 0 = a + prefLen L g := by
  intro L
  induction L with
  | nil => intro a g hg; exact absurd hg (by simp)
  | cons b L ih =>
      intro a g hg
      rcases g with _ | g
      · simp [offsetsFrom, prefLen_zero]
      · show (offsetsFrom (a + b.length) L).getD g 0 = a + prefLen (b :: L) (g + 1)
        rw [ih (a + b.length) g (by simpa using hg), prefLen_cons]
        omega

theorem filter_le_offsetsFrom_len {α : Type} :
    ∀ (L : List (List α)) (g a t : Nat), g < L.length →
      a + prefLen L g ≤ t → t < a + prefLen L (g + 1) →
      ((offsetsFrom a L).filter (fun s => s ≤ t)).length = g + 1 := by
  intro L
  induction L with
  | nil => intro g a t hg; exact absurd hg (by simp)
  | cons b L ih =>
      intro g a t hg h1 h2
      rcases g with _ | g
      · rw [prefLen_zero] at h1
        rw [prefLen_cons, prefLen_zero] at h2
        have hha : decide (a ≤ t) = true := by simpa using (by omega : a ≤ t)
        have hrest : (offsetsFrom (a + b.length) L).filter (fun s => s ≤ t) = [] := by
          rw [List.filter_eq_nil_iff]
          intro s hs
          have := le_of_mem_offsetsFrom L (a + b.length) s hs
          simpa using (by omega : ¬(s ≤ t))
        simp [offsetsFrom, List.filter_cons, hha, hrest]
      · rw [prefLen_cons] at h1 h2
        have hha : decide (a ≤ t) = true := by simpa using (by omega : a ≤ t)
        have hrec := ih g (a + b.length) t (by simpa using hg) (by omega) (by omega)
        simp only [offsetsFrom, List.filter_cons, hha, cond_true, List.length_cons, hrec]
        simp
        exact hrec

theorem segOfPos_offsets {α : Type} (L : List (List α)) (g t : Nat) (hg : g < L.length)
    (h1 : prefLen L g ≤ t) (h2 : t < prefLen L (g + 1)) :
    segOfPos (offsetsFrom 0 L) t = g := by
  unfold segOfPos
  rw [filter_le_offsetsFrom_len L g 0 t hg (by omega) (by omega)]
  omega

theorem flatten_drop_take {α : Type} :
    ∀ (L : List (List α)) (g : Nat), g < L.length →
      (L.flatten.drop (prefLen L g)).take (prefLen L (g + 1) - prefLen L g) =
        L.getD g [] := by
  intro L
  induction L with
  | nil => intro g hg; exact absurd hg (by simp)
  | cons b L ih =>
      intro g hg
      rcases g with _ | g
      · rw [prefLen_zero, prefLen_cons, prefLen_zero]
        simp [List.flatten_cons, List.take_left]
      · rw [prefLen_cons, prefLen_cons, List.flatten_cons, List.drop_append,
          Nat.add_sub_add_left]
        exact ih g (by simpa using hg)

theorem offsetsFrom_map {α β : Type} (f : α → β) : ∀ (L : List (List α)) (a : Nat),
    offsetsFrom a (L.map (List.map f)) = offsetsFrom a L := by
  intro L
  induction L with
  | nil => intro a; rfl
  | cons b L ih => intro a; simp [offsetsFrom, ih]

theorem segSlice_flatten (V : List (List Int)) (g : Nat) (hg : g < V.length) :
    segSlice V.flatten (offsetsFrom 0 V) g = V.getD g [] := by
  unfold segSlice
  have hlen : (offsetsFrom 0 V).length = V.length := length_offsetsFrom V 0
  have hlo : (offsetsFrom 0 V).getD g 0 = prefLen V g := by
    rw [getD_offsetsFrom V 0 g hg]
    omega
  by_cases hg1 : g + 1 < V.length
  · rw [hlo, if_pos (by omega : g + 1 < (offsetsFrom 0 V).length),
      getD_offsetsFrom V 0 (g + 1) hg1, Nat.zero_add]
    exact flatten_drop_take V g hg
  · rw [hlo, if_neg (by omega : ¬(g + 1 < (offsetsFrom 0 V).length))]
    have hflat : V.flatten.length = prefLen V (g + 1) :=
      (prefLen_of_ge V (g + 1) (by omega)).symm
    rw [hflat]
    exact flatten_drop_take V g hg

theorem runStarts_const_skip {κ : Type} [DecidableEq κ] (u : κ) :
    ∀ (cs : List κ), (∀ c ∈ cs, c = u) → ∀ (t : Nat) (rest : List κ),
      runStarts t (some u) (cs ++ rest) = runStarts (t + cs.length) (some u) rest := by
  intro cs
  induction cs with
  | nil => intro _ t rest; rfl
  | cons c cs ih =>
      intro h t rest
      have hc : c = u := h c (List.mem_cons_self c cs)
      subst hc
      show (if some c ≠ some c then [t] else []) ++
          runStarts (t + 1) (some c) (cs ++ rest) = _
      rw [if_neg (by simp)]
      rw [ih (fun x hx => h x (List.mem_cons_of_mem c hx)) (t + 1) rest]
      simp only [List.nil_append, List.length_cons]
      congr 1
      omega

theorem runStarts_blocks {κ : Type} [DecidableEq κ] :
    ∀ (us : List κ) (bf : κ → List κ), us.Nodup →
      (∀ u ∈ us, bf u ≠ [] ∧ ∀ c ∈ bf u, c = u) →
      ∀ (a : Nat) (prev : Option κ), (∀ u ∈ us, some u ≠ prev) →
      runStarts a prev ((us.map bf).flatten) = offsetsFrom a (us.map bf) := by
  intro us
  induction us with
  | nil => intro bf _ _ a prev _; rfl
  | cons u us ih =>
      intro bf hnd hbf a prev hprev
      have hne : bf u ≠ [] := (hbf u (List.mem_cons_self u us)).1
      have hconst : ∀ c ∈ bf u, c = u := (hbf u (List.mem_cons_self u us)).2
      rcases List.exists_cons_of_ne_nil hne with ⟨c, cs, hcs⟩
      have hc : c = u := hconst c (by rw [hcs]; exact List.mem_cons_self c cs)
      have hconst' : ∀ x ∈ cs, x = u := fun x hx =>
        hconst x (by rw [hcs]; exact List.mem_cons_of_mem c hx)
      rw [List.map_cons, List.flatten_cons, hcs]
      show runStarts a prev (c :: (cs ++ (us.map bf).flatten)) = _
      show (if some c ≠ prev then [a] else []) ++
          runStarts (a + 1) (some c) (cs ++ (us.map bf).flatten) = _
      rw [if_pos (by rw [hc]; exact hprev u (List.mem_cons_self u us)), hc]
      rw [runStarts_const_skip u cs hconst' (a + 1) ((us.map bf).flatten)]
      have hnd' : us.Nodup := (List.nodup_cons.mp hnd).2
      have hu_notmem : u ∉ us := (List.nodup_cons.mp hnd).1
      rw [ih bf hnd' (fun v hv => hbf v (List.mem_cons_of_mem u hv)) (a + 1 + cs.length)
        (some u) (fun v hv => by
          intro hvu
          rw [Option.some.injEq] at hvu
          exact hu_notmem (hvu ▸ hv))]
      have harith : a + 1 + cs.length = a + (cs.length + 1) := by omega
      simp only [List.singleton_append, offsetsFrom, List.length_cons, harith]

theorem findSegments_argsort_eq_offsets {κ : Type} [LinearOrder κ] [DecidableEq κ]
    (f : Nat → κ) (n : Nat) :
    (findSegmentsK (argsortF f n) f).1 = offsetsFrom 0 (blocksF f n) := by
  unfold findSegmentsK
  simp only
  have hmapmap : (argsortF f n).map f =
      ((sortedDistinct ((List.range n).map f)).map
        (fun u => (groupIdxF f n u).map f)).flatten := by
    unfold argsortF blocksF
    rw [List.map_flatten, List.map_map]
    rfl
  rw [hmapmap]
  rw [runStarts_blocks (sortedDistinct ((List.range n).map f))
    (fun u => (groupIdxF f n u).map f) (nodup_sortedDistinct _) ?hbf 0 none ?hprev]
  · unfold blocksF
    rw [show ((sortedDistinct ((List.range n).map f)).map
        (fun u => (groupIdxF f n u).map f)) =
      ((sortedDistinct ((List.range n).map f)).map (groupIdxF f n)).map
        (List.map f) by rw [List.map_map]; rfl]
    exact offsetsFrom_map f _ 0
  case hbf =>
    intro u hu
    constructor
    · simp only [ne_eq, List.map_eq_nil]
      rw [mem_sortedDistinct] at hu
      rcases List.mem_map.mp hu with ⟨i, hi, rfl⟩
      intro hnil
      have hmem : i ∈ groupIdxF f n (f i) := by
        unfold groupIdxF
        rw [List.mem_filter]
        exact ⟨hi, by simp⟩
      rw [hnil] at hmem
      exact List.not_mem_nil i hmem
    · intro c hc
      rcases List.mem_map.mp hc with ⟨j, hj, rfl⟩
      unfold groupIdxF at hj
      exact of_decide_eq_true (List.mem_filter.mp hj).2
  case hprev =>
    intro u _
    simp

theorem getD_map_of_lt {α β : Type} (h : α → β) (L : List α) (g : Nat) (d : β) (d' : α)
    (hg : g < L.length) : (L.map h).getD g d = h (L.getD g d') := by
  rw [getD_of_lt _ _ _ (by simpa using hg), getD_of_lt _ _ _ hg]
  simp [List.get_eq_getElem, List.getElem_map]

theorem indexOf_flatten_blocks {κ : Type} [DecidableEq κ] (fk : Nat → κ)
    (bf : κ → List Nat) :
    ∀ (us : List κ), us.Nodup →
      (∀ u ∈ us, ∀ j ∈ bf u, fk j = u) →
      ∀ (g : Nat) (hg : g < us.length) (i : Nat), i ∈ bf (us.get ⟨g, hg⟩) →
      prefLen (us.map bf) g ≤ ((us.map bf).flatten).indexOf i ∧
        ((us.map bf).flatten).indexOf i < prefLen (us.map bf) (g + 1) := by
  intro us
  induction us with
  | nil => intro _ _ g hg; exact absurd hg (by simp)
  | cons u us ih =>
      intro hnd hbf g hg i hi
      rcases g with _ | g
      · have hmem : i ∈ bf u := hi
        rw [List.map_cons, List.flatten_cons, List.indexOf_append_of_mem hmem]
        refine ⟨Nat.zero_le _, ?_⟩
        rw [prefLen_cons, prefLen_zero]
        have := List.indexOf_lt_length.mpr hmem
        omega
      · have hg' : g < us.length := by simpa using hg
        have hi' : i ∈ bf (us.get ⟨g, hg'⟩) := hi
        have hvmem : us.get ⟨g, hg'⟩ ∈ us := List.get_mem us g hg'
        have hu_notmem : u ∉ us := (List.nodup_cons.mp hnd).1
        have hnotin : i ∉ bf u := by
          intro hmem
          have h1 : fk i = u := hbf u (List.mem_cons_self u us) i hmem
          have h2 : fk i = us.get ⟨g, hg'⟩ :=
            hbf _ (List.mem_cons_of_mem u hvmem) i hi'
          exact hu_notmem ((h1 ▸ h2 : u = us.get ⟨g, hg'⟩) ▸ hvmem)
        rw [List.map_cons, List.flatten_cons, List.indexOf_append_of_not_mem hnotin]
        have hrec := ih ((List.nodup_cons.mp hnd).2)
          (fun v hv => hbf v (List.mem_cons_of_mem u hv)) g hg' i hi'
        rw [prefLen_cons, prefLen_cons]
        omega

theorem segOfPos_indexOf_argsortF {κ : Type} [LinearOrder κ] [DecidableEq κ]
    (f : Nat → κ) (n i : Nat) (hi : i < n) :
    segOfPos (offsetsFrom 0 (blocksF f n)) ((argsortF f n).indexOf i) =
      (sortedDistinct ((List.range n).map f)).indexOf (f i) := by
  have hmem : f i ∈ sortedDistinct ((List.range n).map f) := by
    rw [mem_sortedDistinct]
    exact List.mem_map_of_mem f (List.mem_range.mpr hi)
  have hg : (sortedDistinct ((List.range n).map f)).indexOf (f i) <
      (sortedDistinct ((List.range n).map f)).length :=
    List.indexOf_lt_length.mpr hmem
  have hget : (sortedDistinct ((List.range n).map f)).get
      ⟨(sortedDistinct ((List.range n).map f)).indexOf (f i), hg⟩ = f i := by
    rw [List.get_eq_getElem]
    exact List.getElem_indexOf hg
  have hblock : i ∈ groupIdxF f n ((sortedDistinct ((List.range n).map f)).get
      ⟨(sortedDistinct ((List.range n).map f)).indexOf (f i), hg⟩) := by
    rw [hget]
    unfold groupIdxF
    rw [List.mem_filter]
    exact ⟨List.mem_range.mpr hi, by simp⟩
  have hbounds := indexOf_flatten_blocks f (groupIdxF f n)
    (sortedDistinct ((List.range n).map f)) (nodup_sortedDistinct _)
    (fun u _ j hj => of_decide_eq_true (List.mem_filter.mp hj).2)
    ((sortedDistinct ((List.range n).map f)).indexOf (f i)) hg i hblock
  exact segOfPos_offsets (blocksF f n) _ _
    (by simpa [blocksF, List.length_map] using hg) hbounds.1 hbounds.2

theorem length_argsortL (ks : List Int) : (argsortL ks).length = ks.length :=
  length_argsortF _ _

theorem groupBySingle_permutation (ks : List Int) :
    (groupBySingle ks).permutation = argsortL ks := rfl

theorem groupBySingle_size (ks : List Int) : (groupBySingle ks).size = ks.length := rfl

theorem groupBySingle_assumeSorted (ks : List Int) :
    (groupBySingle ks).assumeSorted = false := rfl

theorem groupBySingle_segments (ks : List Int) :
    (groupBySingle ks).segments =
      offsetsFrom 0 (blocksF (fun i => ks.getD i 0) ks.length) := by
  show (findSegmentsK (argsortL ks) (fun i => ks.getD i 0)).1 = _
  exact findSegments_argsort_eq_offsets _ _

theorem groupBySingle_ngroups (ks : List Int) :
    (groupBySingle ks).ngroups = (groupBySingle ks).segments.length := by
  show ((findSegmentsK (argsortL ks) (fun i => ks.getD i 0)).2.map
    (fun r => ks.getD r 0)).length = (findSegmentsK (argsortL ks) (fun i => ks.getD i 0)).1.length
  unfold findSegmentsK
  simp

theorem groupBySingle_segments_length (ks : List Int) :
    (groupBySingle ks).segments.length =
      (sortedDistinct ((List.range ks.length).map (fun i => ks.getD i 0))).length := by
  rw [groupBySingle_segments, length_offsetsFrom]
  simp [blocksF]

theorem argsortL_eq (ks : List Int) :
    argsortL ks = argsortF (fun i => ks.getD i 0) ks.length := rfl

theorem segmentedSumK_argsortF_getD {κ : Type} [LinearOrder κ] [DecidableEq κ]
    (f : Nat → κ) (n : Nat) (w : Nat → Int) (g : Nat)
    (hg : g < (blocksF f n).length) :
    (segmentedSumK ((argsortF f n).map w) (offsetsFrom 0 (blocksF f n))).getD g 0 =
      (((blocksF f n).getD g []).map w).sum := by
  unfold segmentedSumK
  rw [getD_map_range
    (fun gg => (segSlice ((argsortF f n).map w) (offsetsFrom 0 (blocksF f n)) gg).sum)
    ((offsetsFrom 0 (blocksF f n)).length) g 0 (by rw [length_offsetsFrom]; exact hg)]
  have hpv : (argsortF f n).map w = ((blocksF f n).map (List.map w)).flatten := by
    unfold argsortF
    exact List.map_flatten w _
  have hsegs : offsetsFrom 0 (blocksF f n) =
      offsetsFrom 0 ((blocksF f n).map (List.map w)) :=
    (offsetsFrom_map w (blocksF f n) 0).symm
  rw [hpv, hsegs,
    segSlice_flatten ((blocksF f n).map (List.map w)) g (by simpa using hg)]
  rw [getD_map_of_lt (List.map w) (blocksF f n) g [] [] hg]

/-- C5 counterexample: the group-tag broadcast in `nunique`'s first step
is not the grouped-order (non-un-permuting) broadcast path: on the key
column `[1, 0]` the step-1 result differs from the output of the
`permute=False` path — refuting the claim that the group index is
broadcast in grouped order. -/
theorem c5_counterexample :
    ¬((nuniqueStep1 (groupBySingle [1, 0])).2.2 =
      .ok (broadcastKernelG (groupBySingle [1, 0]).permutation
        (groupBySingle [1, 0]).segments (arangeInt (groupBySingle [1, 0]).ngroups)
        false (groupBySingle [1, 0]).size)) := by
  intro h
  have h1 : (nuniqueStep1 (groupBySingle [1, 0])).2.2 = .ok [1, 0] := rfl
  have h2 : broadcastKernelG (groupBySingle [1, 0]).permutation
      (groupBySingle [1, 0]).segments (arangeInt (groupBySingle [1, 0]).ngroups)
      false (groupBySingle [1, 0]).size = [0, 1] := rfl
  rw [h1, h2] at h
  simp at h

/-- C5 (amended): `nunique`'s first step broadcasts the group index
`[0, ngroups)` back out to one value per original row in original row
order (the un-permuting `permute=True` path), so that the resulting tag
aligns with the values column positionally: at every original row `i`
the tag equals the group index of row `i`; this tag is then paired with
the values column to build the secondary composite-key grouping. -/
theorem c5_amended_group_tag_original_order (ks : List Int) (i : Nat)
    (hi : i < ks.length) :
    ∃ tag, (nuniqueStep1 (groupBySingle ks)).2.2 = .ok tag ∧
      tag.getD i 0 = Int.ofNat (groupIndexOf ks i) := by
  have husks : (List.range ks.length).map (fun j => ks.getD j 0) = ks := map_getD_range ks
  have hng := groupBySingle_ngroups ks
  have hchk : ¬((⟨arangeInt (groupBySingle ks).ngroups, DType.int64⟩ : PD).data.length ≠
      (groupBySingle ks).segments.length) := by
    simp [arangeInt, hng]
  unfold nuniqueStep1 methodBroadcast
  rw [if_neg hchk]
  refine ⟨_, rfl, ?_⟩
  show (broadcastKernelG (groupBySingle ks).permutation (groupBySingle ks).segments
      (arangeInt (groupBySingle ks).ngroups) true (groupBySingle ks).size).getD i 0 =
    Int.ofNat (groupIndexOf ks i)
  unfold broadcastKernelG
  rw [if_pos rfl]
  rw [getD_map_range _ _ i 0 (by rw [groupBySingle_size]; exact hi)]
  rw [groupBySingle_permutation, groupBySingle_segments, argsortL_eq,
    segOfPos_indexOf_argsortF (fun j => ks.getD j 0) ks.length i hi]
  have hmem : (fun j => ks.getD j 0) i ∈
      sortedDistinct ((List.range ks.length).map (fun j => ks.getD j 0)) := by
    rw [mem_sortedDistinct]
    exact List.mem_map_of_mem _ (List.mem_range.mpr hi)
  have hgidx := List.indexOf_lt_length.mpr hmem
  have hlt : (sortedDistinct ((List.range ks.length).map (fun j => ks.getD j 0))).indexOf
      ((fun j => ks.getD j 0) i) < (groupBySingle ks).ngroups := by
    rw [hng, groupBySingle_segments_length]
    exact hgidx
  unfold arangeInt
  rw [getD_map_range Int.ofNat _ _ 0 hlt]
  rw [show ((List.range ks.length).map (fun j => ks.getD j 0)) = ks from husks]
  rfl

theorem c5_amended_group_tag_original_order_witness :
    ∃ tag, (nuniqueStep1 (groupBySingle [1, 0])).2.2 = .ok tag ∧
      tag.getD 0 0 = Int.ofNat (groupIndexOf [1, 0] 0) :=
  c5_amended_group_tag_original_order [1, 0] 0 (by decide)

/-- C1: the grouping/broadcast round-trip.  For the grouping of any
int64 key column and any value column of matching size, broadcasting the
per-group sums returned by `aggregate(values, "sum")` through the
module-level `broadcast` with the grouping's segments and permutation
yields, at every original row position, the sum of the value column over
all rows belonging to that row's group. -/
theorem c1_broadcast_sum_roundtrip (ks : List Int) (v : PD)
    (hlen : v.data.length = ks.length) (i : Nat) (hi : i < ks.length) :
    ∃ sums out,
      (methodAggregate sumKernel (groupBySingle ks) v "sum" true).2.2 =
        .ok ((groupBySingle ks).uniqueKeys, sums) ∧
      (broadcastModule (groupBySingle ks).segments sums (-1)
          (some (groupBySingle ks).permutation)).2 = .ok out ∧
      out.getD i 0 = groupSumAt ks v.data i := by
  have hagg := methodAggregate_noarg_eq sumKernel (groupBySingle ks) v "sum" true
    (by decide) (by decide) (by rw [groupBySingle_size]; exact hlen) (by decide)
  have hmem : (fun j => ks.getD j 0) i ∈
      sortedDistinct ((List.range ks.length).map (fun j => ks.getD j 0)) := by
    rw [mem_sortedDistinct]
    exact List.mem_map_of_mem _ (List.mem_range.mpr hi)
  have hgidx := List.indexOf_lt_length.mpr hmem
  refine ⟨segmentedSumK ((argsortL ks).map (fun t => v.data.getD t 0))
      (groupBySingle ks).segments,
    broadcastKernelG (groupBySingle ks).permutation (groupBySingle ks).segments
      (segmentedSumK ((argsortL ks).map (fun t => v.data.getD t 0))
        (groupBySingle ks).segments)
      true (groupBySingle ks).permutation.length, ?_, ?_, ?_⟩
  · rw [hagg]
    rfl
  · have h1 : ¬((groupBySingle ks).segments.length ≠
        (segmentedSumK ((argsortL ks).map (fun t => v.data.getD t 0))
          (groupBySingle ks).segments).length) := by
      simp [segmentedSumK]
    have h2 : ¬((groupBySingle ks).segments.length = 0) := by
      rw [groupBySingle_segments_length]
      omega
    have h3 : ¬(((groupBySingle ks).permutation.length : Int) < 1) := by
      rw [groupBySingle_permutation, length_argsortL]
      omega
    unfold broadcastModule
    rw [if_neg h1, if_neg h2]
    show (if ((groupBySingle ks).permutation.length : Int) < 1 then _ else _ :
        List Call × Except PyError (List Int)).2 = _
    rw [if_neg h3]
  · unfold broadcastKernelG
    rw [if_pos rfl]
    rw [getD_map_range _ _ i 0 (by rw [groupBySingle_permutation, length_argsortL]; exact hi)]
    rw [groupBySingle_permutation, groupBySingle_segments, argsortL_eq,
      segOfPos_indexOf_argsortF (fun j => ks.getD j 0) ks.length i hi]
    rw [segmentedSumK_argsortF_getD (fun j => ks.getD j 0) ks.length
      (fun t => v.data.getD t 0) _ (by simpa [blocksF] using hgidx)]
    have hblk : (blocksF (fun j => ks.getD j 0) ks.length).getD
        ((sortedDistinct ((List.range ks.length).map (fun j => ks.getD j 0))).indexOf
          ((fun j => ks.getD j 0) i)) [] =
        groupIdxF (fun j => ks.getD j 0) ks.length
          ((sortedDistinct ((List.range ks.length).map (fun j => ks.getD j 0))).getD
            ((sortedDistinct ((List.range ks.length).map (fun j => ks.getD j 0))).indexOf
              ((fun j => ks.getD j 0) i)) 0) := by
      unfold blocksF
      exact getD_map_of_lt _ _ _ [] 0 hgidx
    rw [hblk]
    have hgetidx : (sortedDistinct ((List.range ks.length).map (fun j => ks.getD j 0))).getD
        ((sortedDistinct ((List.range ks.length).map (fun j => ks.getD j 0))).indexOf
          ((fun j => ks.getD j 0) i)) 0 = (fun j => ks.getD j 0) i := by
      rw [getD_of_lt _ _ _ hgidx, List.get_eq_getElem]
      exact List.getElem_indexOf hgidx
    rw [hgetidx]
    rfl

theorem c1_broadcast_sum_roundtrip_witness :
    ∃ sums out,
      (methodAggregate sumKernel (groupBySingle [1, 0, 1])
          ⟨[10, 20, 30], DType.int64⟩ "sum" true).2.2 =
        .ok ((groupBySingle [1, 0, 1]).uniqueKeys, sums) ∧
      (broadcastModule (groupBySingle [1, 0, 1]).segments sums (-1)
          (some (groupBySingle [1, 0, 1]).permutation)).2 = .ok out ∧
      out.getD 0 0 = groupSumAt [1, 0, 1] [10, 20, 30] 0 :=
  c1_broadcast_sum_roundtrip [1, 0, 1] ⟨[10, 20, 30], DType.int64⟩ rfl 0 (by decide)

end Arkouda
